import Mathlib

/-!
# Verification of the svd2rust core semantic model

The repository's `src/lib.rs` is the crate documentation of `svd2rust`: it
describes the semantic pipeline (model builder, derivation resolver, layout
engine, access and safety analyzer, code model emitter) that turns a parsed
SVD device description into a typed register API, together with one
`macro_rules!` item (`interrupt!`).  This file gives a shallow embedding of
that data model and of the pipeline's operations, and proves the documented
properties about them.  Operations whose executable source is not in the
repository snapshot are modelled from the specification text, as noted in
their doc comments.
-/

namespace Svd

/-- Access mode of a register or field (read-only, write-only, read-write). -/
inductive Access where
  | read
  | write
  | readWrite
deriving DecidableEq

/-- An enumerated value of a field: a symbolic name bound either to a
concrete integer value or to the default marker (`value = none`), which
matches any value not otherwise named. -/
structure EnumeratedValue where
  name : String
  value : Option Nat
deriving DecidableEq

/-- A named bit range within a register, with optional declared access and
per-direction enumerated-value sets (empty list means raw-bits semantics
for that direction). -/
structure Field where
  name : String
  bitOffset : Nat
  bitWidth : Nat
  access : Option Access
  readValues : List EnumeratedValue
  writeValues : List EnumeratedValue
deriving DecidableEq

/-- A fixed-width storage unit at a byte offset from its peripheral base. -/
structure Register where
  name : String
  addressOffset : Nat
  bitWidth : Nat
  access : Option Access
  resetValue : Nat
  fields : List Field
deriving DecidableEq

/-- A named, memory-mapped hardware unit exposing one register block at a
base address, possibly deriving its register set from another peripheral. -/
structure Peripheral where
  name : String
  baseAddress : Nat
  derivedFrom : Option String
  registers : List Register
deriving DecidableEq

/-- An interrupt: a name bound to a vector number. -/
structure Interrupt where
  name : String
  value : Nat
deriving DecidableEq

/-- A whole device: peripherals plus the flat interrupt table. -/
structure Device where
  name : String
  peripherals : List Peripheral
  interrupts : List Interrupt
deriving DecidableEq

/-! ## Field write masking (spec section 4.4, crate doc lines 294-297) -/

/-- Modelled from the spec: the all-ones mask `(1 << w) - 1` of a `w`-bit
field window used by the write accessors (the executable generator is not
in the snapshot; only its crate documentation is). -/
def fieldWriteMask (w : Nat) : Nat := (1 <<< w) - 1

/-- Modelled from the spec: a write input is masked to its `w`-bit window
before being placed; the mask is silent truncation by design. -/
def maskedFieldValue (w v : Nat) : Nat := v &&& fieldWriteMask w

/-- Modelled from the spec: the masked value is shifted to the field's bit
offset before being OR-combined into the pending write word. -/
def placeFieldBits (bitOffset w v : Nat) : Nat := maskedFieldValue w v <<< bitOffset

/-- Modelled from the spec: OR-combination of a field write into the
register's pending write word.  The function is total: truncation is never
reported as an error. -/
def applyFieldWrite (word bitOffset w v : Nat) : Nat :=
  word ||| placeFieldBits bitOffset w v

/-! ## Enumerated-value coverage (spec section 4.4) -/

/-- Whether an enumerated-value set contains a default marker. -/
def hasDefault (evs : List EnumeratedValue) : Bool :=
  evs.any (fun ev => ev.value.isNone)

/-- The explicitly named concrete values of an enumerated-value set. -/
def explicitValues (evs : List EnumeratedValue) : List Nat :=
  evs.filterMap EnumeratedValue.value

/-- A raw value `v` is covered by the set when it is explicitly named or
when a default marker absorbs it. -/
def coversValue (evs : List EnumeratedValue) (v : Nat) : Bool :=
  (explicitValues evs).contains v || hasDefault evs

/-- Modelled from the spec: the analyzer's exhaustiveness decision for a
field of bit width `w` (the executable analyzer is not in the snapshot).
A default marker satisfies coverage of every value not explicitly named;
otherwise the set must name `2 ^ w` distinct values. -/
def isExhaustive (w : Nat) (evs : List EnumeratedValue) : Bool :=
  hasDefault evs || (explicitValues evs).dedup.length == 2 ^ w

/-- Modelled from the spec: the raw-bits write path requires the unsafe
escape exactly when the enumerated-value set is not exhaustive. -/
def bitsWriteUnsafe (w : Nat) (evs : List EnumeratedValue) : Bool :=
  ! isExhaustive w evs

/-! ## Coverage lemmas -/

lemma explicitValues_toFinset_subset {w : Nat} {evs : List EnumeratedValue}
    (hfit : ∀ v ∈ explicitValues evs, v < 2 ^ w) :
    (explicitValues evs).toFinset ⊆ Finset.range (2 ^ w) := by
  intro x hx
  exact Finset.mem_range.mpr (hfit x (List.mem_toFinset.mp hx))

lemma exhaustive_iff_covers (w : Nat) (evs : List EnumeratedValue)
    (hfit : ∀ v ∈ explicitValues evs, v < 2 ^ w) :
    isExhaustive w evs = true ↔ ∀ v < 2 ^ w, coversValue evs v = true := by
  constructor
  · intro h v hv
    rcases Bool.or_eq_true_iff.mp h with hdef | hcount
    · simp [coversValue, hdef]
    · have hlen : (explicitValues evs).dedup.length = 2 ^ w := by
        simpa using hcount
      have hcard : (Finset.range (2 ^ w)).card ≤ (explicitValues evs).toFinset.card := by
        rw [List.card_toFinset, hlen, Finset.card_range]
      have heq : (explicitValues evs).toFinset = Finset.range (2 ^ w) :=
        Finset.eq_of_subset_of_card_le (explicitValues_toFinset_subset hfit) hcard
      have hmem : v ∈ explicitValues evs := by
        have : v ∈ (explicitValues evs).toFinset := heq ▸ Finset.mem_range.mpr hv
        exact List.mem_toFinset.mp this
      simp [coversValue, hmem]
  · intro h
    by_cases hdef : hasDefault evs = true
    · simp [isExhaustive, hdef]
    · have hmem : ∀ v < 2 ^ w, v ∈ explicitValues evs := by
        intro v hv
        have hc := h v hv
        simp [coversValue, hdef] at hc
        exact hc
      have h1 : Finset.range (2 ^ w) ⊆ (explicitValues evs).toFinset := by
        intro v hv
        exact List.mem_toFinset.mpr (hmem v (Finset.mem_range.mp hv))
      have heq : (explicitValues evs).toFinset = Finset.range (2 ^ w) :=
        subset_antisymm (explicitValues_toFinset_subset hfit) h1
      have hlen : (explicitValues evs).dedup.length = 2 ^ w := by
        rw [← List.card_toFinset, heq, Finset.card_range]
      simp [isExhaustive, hlen]

/-- C1: a field of bit width `w` is marked exhaustive for a direction iff the
union of its explicitly named values and the values absorbed by a default
marker covers the full domain of `2 ^ w` representable values; a width-1
field naming both 0 and 1 is exhaustive, and the raw-bits write path is
checked-safe (no unsafe escape) exactly in the exhaustive case. -/
theorem claim1_exhaustive_iff_full_coverage (w : Nat) (evs : List EnumeratedValue)
    (hfit : ∀ v ∈ explicitValues evs, v < 2 ^ w) :
    (isExhaustive w evs = true ↔ ∀ v < 2 ^ w, coversValue evs v = true)
    ∧ isExhaustive 1 [⟨"Input", some 0⟩, ⟨"Output", some 1⟩] = true
    ∧ (∀ w' evs', bitsWriteUnsafe w' evs' = false ↔ isExhaustive w' evs' = true) := by
  refine ⟨exhaustive_iff_covers w evs hfit, by decide, ?_⟩
  intro w' evs'
  simp [bitsWriteUnsafe]

/-- Witness for C1 at the width-1 field with named values for 0 and 1. -/
theorem claim1_exhaustive_iff_full_coverage_witness :
    (∀ v ∈ explicitValues [⟨"Input", some 0⟩, ⟨"Output", some 1⟩], v < 2 ^ 1)
    ∧ ((isExhaustive 1 [⟨"Input", some 0⟩, ⟨"Output", some 1⟩] = true ↔
          ∀ v < 2 ^ 1, coversValue [⟨"Input", some 0⟩, ⟨"Output", some 1⟩] v = true)
        ∧ isExhaustive 1 [⟨"Input", some 0⟩, ⟨"Output", some 1⟩] = true
        ∧ (∀ w' evs', bitsWriteUnsafe w' evs' = false ↔ isExhaustive w' evs' = true)) :=
  ⟨by decide,
    claim1_exhaustive_iff_full_coverage 1 [⟨"Input", some 0⟩, ⟨"Output", some 1⟩] (by decide)⟩

/-- C2: for every field of width `w` at `bitOffset` and every input integer
`v`, the bits placed into the pending write word equal `v` masked to `w`
bits (that is, `v % 2 ^ w`) shifted to `bitOffset`; the truncation is silent
(only the low `w` bits of `v` matter) and the write function is total, so it
is never reported as an error. -/
theorem claim2_write_masking (word w bitOffset v : Nat) :
    placeFieldBits bitOffset w v = v % 2 ^ w * 2 ^ bitOffset
    ∧ placeFieldBits bitOffset w v = placeFieldBits bitOffset w (v % 2 ^ w)
    ∧ applyFieldWrite word bitOffset w v = word ||| v % 2 ^ w * 2 ^ bitOffset := by
  have hmask : fieldWriteMask w = 2 ^ w - 1 := by
    simp [fieldWriteMask, Nat.one_shiftLeft]
  have h1 : ∀ u : Nat, placeFieldBits bitOffset w u = u % 2 ^ w * 2 ^ bitOffset := by
    intro u
    simp [placeFieldBits, maskedFieldValue, hmask, Nat.and_pow_two_sub_one_eq_mod,
      Nat.shiftLeft_eq]
  refine ⟨h1 v, ?_, ?_⟩
  · rw [h1 v, h1 (v % 2 ^ w), Nat.mod_mod]
  · simp [applyFieldWrite, h1 v]

/-! ## Register access inference (spec section 4.4, crate doc lines 195-198) -/

/-- Modelled from the spec: if the register declares an access mode, use it;
else infer Read when every field is read-only, Write when every field is
write-only, and ReadWrite when fields are mixed or unspecified (the
executable analyzer is not in the snapshot). -/
def inferAccess (r : Register) : Access :=
  match r.access with
  | some a => a
  | none =>
    if r.fields.all (fun f => f.access == some Access.read) then Access.read
    else if r.fields.all (fun f => f.access == some Access.write) then Access.write
    else Access.readWrite

/-- A register accessor method of the generated API. -/
inductive Method where
  | read
  | modify
  | write
deriving DecidableEq

/-- Modelled from the spec: read-only registers expose only `read`,
write-only registers only `write`, read-write registers expose `read`,
`modify` and `write`. -/
def regMethods : Access → List Method
  | Access.read => [Method.read]
  | Access.write => [Method.write]
  | Access.readWrite => [Method.read, Method.modify, Method.write]

/-- C3: the effective access mode of a register is the declared one when
present; otherwise Read when every field is read-only, Write when every
field is write-only (and there is a field at all), and ReadWrite when the
fields are mixed or unspecified; the accessor surface exposed for each mode
is read / write / read-modify-write respectively. -/
theorem claim3_register_access_inference :
    (∀ (r : Register) (a : Access), r.access = some a → inferAccess r = a)
    ∧ (∀ r : Register, r.access = none →
        (∀ f ∈ r.fields, f.access = some Access.read) → inferAccess r = Access.read)
    ∧ (∀ r : Register, r.access = none → r.fields ≠ [] →
        (∀ f ∈ r.fields, f.access = some Access.write) → inferAccess r = Access.write)
    ∧ (∀ r : Register, r.access = none →
        (¬ ∀ f ∈ r.fields, f.access = some Access.read) →
        (¬ ∀ f ∈ r.fields, f.access = some Access.write) →
        inferAccess r = Access.readWrite)
    ∧ regMethods Access.read = [Method.read]
    ∧ regMethods Access.write = [Method.write]
    ∧ regMethods Access.readWrite = [Method.read, Method.modify, Method.write] := by
  refine ⟨?_, ?_, ?_, ?_, rfl, rfl, rfl⟩
  · intro r a h
    simp [inferAccess, h]
  · intro r h hall
    simp [inferAccess, h, List.all_eq_true]
    intro f hf
    simp [hall f hf]
  · intro r h hne hall
    obtain ⟨f0, hf0⟩ : ∃ f, f ∈ r.fields := by
      cases hfs : r.fields with
      | nil => exact absurd hfs hne
      | cons a l => exact ⟨a, by simp [hfs]⟩
    have hnotread : ¬ (r.fields.all (fun f => f.access == some Access.read) = true) := by
      simp [List.all_eq_true]
      exact ⟨f0, hf0, by simp [hall f0 hf0]⟩
    simp only [inferAccess, h]
    rw [if_neg hnotread, if_pos]
    simp [List.all_eq_true]
    intro f hf
    simp [hall f hf]
  · intro r h hr hw
    have hnotread : ¬ (r.fields.all (fun f => f.access == some Access.read) = true) := by
      simp [List.all_eq_true]
      simp only [not_forall] at hr
      obtain ⟨f, hf, hfa⟩ := hr
      exact ⟨f, hf, by simpa using hfa⟩
    have hnotwrite : ¬ (r.fields.all (fun f => f.access == some Access.write) = true) := by
      simp [List.all_eq_true]
      simp only [not_forall] at hw
      obtain ⟨f, hf, hfa⟩ := hw
      exact ⟨f, hf, by simpa using hfa⟩
    simp only [inferAccess, h]
    rw [if_neg hnotread, if_neg hnotwrite]

/-- Example register with a declared access mode. -/
def declaredReg : Register := ⟨"AR", 12, 32, some Access.readWrite, 0, []⟩

/-- Example register whose fields are all read-only. -/
def readOnlyReg : Register :=
  ⟨"SR", 0, 32, none, 0, [⟨"F1", 0, 1, some Access.read, [], []⟩]⟩

/-- Example register whose fields are all write-only. -/
def writeOnlyReg : Register :=
  ⟨"DR", 4, 32, none, 0, [⟨"F2", 0, 8, some Access.write, [], []⟩]⟩

/-- Example register with mixed-access fields. -/
def mixedReg : Register :=
  ⟨"CR", 8, 32, none, 0,
    [⟨"F3", 0, 1, some Access.read, [], []⟩, ⟨"F4", 1, 1, some Access.write, [], []⟩]⟩

/-- Witness for C3 on the four example registers. -/
theorem claim3_register_access_inference_witness :
    inferAccess declaredReg = Access.readWrite
    ∧ inferAccess readOnlyReg = Access.read
    ∧ inferAccess writeOnlyReg = Access.write
    ∧ inferAccess mixedReg = Access.readWrite :=
  ⟨claim3_register_access_inference.1 declaredReg Access.readWrite rfl,
    claim3_register_access_inference.2.1 readOnlyReg rfl (by decide),
    claim3_register_access_inference.2.2.1 writeOnlyReg rfl (by decide) (by decide),
    claim3_register_access_inference.2.2.2.1 mixedReg rfl (by decide) (by decide)⟩

/-! ## Field read decoding and enum write construction (spec section 4.4) -/

/-- Result of decoding a raw field value through its enumerated values:
either a named variant or a distinguishable unmatched state. -/
inductive ReadVariant where
  | variant (name : String)
  | unmatched (raw : Nat)
deriving DecidableEq

/-- Modelled from the spec: the generated read accessor decodes a raw value
to the first enumerated value naming it, else to the default variant when a
default marker exists, else to the distinguishable unmatched state. -/
def decodeField (evs : List EnumeratedValue) (raw : Nat) : ReadVariant :=
  match evs.find? (fun ev => ev.value == some raw) with
  | some ev => ReadVariant.variant ev.name
  | none =>
    match evs.find? (fun ev => ev.value.isNone) with
    | some ev => ReadVariant.variant ev.name
    | none => ReadVariant.unmatched raw

/-- Modelled from the spec: enum-based write construction looks a variant up
by name and yields its concrete value. -/
def encodeVariant (evs : List EnumeratedValue) (n : String) : Option Nat :=
  (evs.find? (fun ev => ev.name == n)).bind EnumeratedValue.value

/-- Classification of a field's enumerated-value set for one direction.
`incomplete` is the specification's "partial" case. -/
inductive Coverage where
  | rawOnly
  | incomplete
  | exhaustive
deriving DecidableEq

/-- Modelled from the spec: an empty set means raw-bits semantics; a set
covering the whole domain is exhaustive; a non-empty non-covering set with
no default marker is the partial (here: `incomplete`) case. -/
def coverage (w : Nat) (evs : List EnumeratedValue) : Coverage :=
  if evs.isEmpty then Coverage.rawOnly
  else if isExhaustive w evs then Coverage.exhaustive
  else Coverage.incomplete

lemma coverage_incomplete_iff (w : Nat) (evs : List EnumeratedValue) :
    coverage w evs = Coverage.incomplete ↔
      evs ≠ [] ∧ isExhaustive w evs = false := by
  unfold coverage
  by_cases he : evs.isEmpty
  · simp [he, List.isEmpty_iff.mp he]
  · have : evs ≠ [] := by simpa [List.isEmpty_iff] using he
    by_cases hex : isExhaustive w evs
    · simp [he, hex, this]
    · simp [he, hex, this, Bool.not_eq_true] at *

/-- C4: for a field of width `w` whose enumerated-value set for a direction
is non-empty, does not cover all `2 ^ w` values, and has no default marker
(the partial case), decoding exhibits a distinguishable unmatched state for
some in-range value, decoding never aliases an unlisted value to a listed
variant, enum-based write construction only produces listed values, and the
raw-bits write path keeps its unsafe escape. -/
theorem claim4_partial_enum_field (w : Nat) (evs : List EnumeratedValue)
    (hfit : ∀ v ∈ explicitValues evs, v < 2 ^ w)
    (hcov : coverage w evs = Coverage.incomplete) :
    evs ≠ []
    ∧ hasDefault evs = false
    ∧ (∃ v, v < 2 ^ w ∧ decodeField evs v = ReadVariant.unmatched v)
    ∧ (∀ v n, decodeField evs v = ReadVariant.variant n →
        ∃ ev, ev ∈ evs ∧ ev.name = n ∧ ev.value = some v)
    ∧ (∀ n v, encodeVariant evs n = some v → v ∈ explicitValues evs)
    ∧ bitsWriteUnsafe w evs = true := by
  obtain ⟨hne, hex⟩ := (coverage_incomplete_iff w evs).mp hcov
  have hdef : hasDefault evs = false := by
    by_contra hd
    simp [Bool.not_eq_false] at hd
    simp [isExhaustive, hd] at hex
  have hfindDefault : evs.find? (fun ev => ev.value.isNone) = none := by
    rw [List.find?_eq_none]
    intro ev hev hno
    have : hasDefault evs = true := by
      simp [hasDefault, List.any_eq_true]
      exact ⟨ev, hev, by simpa using hno⟩
    simp [this] at hdef
  refine ⟨hne, hdef, ?_, ?_, ?_, by simp [bitsWriteUnsafe, hex]⟩
  · have : ¬ ∀ v < 2 ^ w, coversValue evs v = true := by
      intro hall
      have := (exhaustive_iff_covers w evs hfit).mpr hall
      simp [this] at hex
    push_neg at this
    obtain ⟨v, hv, hnc⟩ := this
    refine ⟨v, hv, ?_⟩
    have hnotmem : v ∉ explicitValues evs := by
      intro hm
      simp [coversValue, hm] at hnc
    have hfind : evs.find? (fun ev => ev.value == some v) = none := by
      rw [List.find?_eq_none]
      intro ev hev hevv
      have : v ∈ explicitValues evs := by
        simp [explicitValues, List.mem_filterMap]
        exact ⟨ev, hev, by simpa using hevv⟩
      exact hnotmem this
    simp [decodeField, hfind, hfindDefault]
  · intro v n hdec
    unfold decodeField at hdec
    cases hfind : evs.find? (fun ev => ev.value == some v) with
    | some ev =>
      have hmem := List.mem_of_find?_eq_some hfind
      have hpred := List.find?_some hfind
      rw [hfind] at hdec
      simp at hdec
      exact ⟨ev, hmem, hdec ▸ rfl, by simpa using hpred⟩
    | none =>
      rw [hfind, hfindDefault] at hdec
      simp at hdec
  · intro n v henc
    unfold encodeVariant at henc
    cases hfind : evs.find? (fun ev => ev.name == n) with
    | some ev =>
      rw [hfind] at henc
      simp at henc
      have hmem := List.mem_of_find?_eq_some hfind
      simp [explicitValues, List.mem_filterMap]
      exact ⟨ev, hmem, henc⟩
    | none =>
      rw [hfind] at henc
      simp at henc

/-- The SADD0 scenario: width-1 field with read values naming only 0. -/
def sadd0Values : List EnumeratedValue := [⟨"Disabled", some 0⟩]

/-- Witness for C4 at the SADD0 scenario field. -/
theorem claim4_partial_enum_field_witness :
    (∀ v ∈ explicitValues sadd0Values, v < 2 ^ 1)
    ∧ coverage 1 sadd0Values = Coverage.incomplete
    ∧ (sadd0Values ≠ []
        ∧ hasDefault sadd0Values = false
        ∧ (∃ v, v < 2 ^ 1 ∧ decodeField sadd0Values v = ReadVariant.unmatched v)
        ∧ (∀ v n, decodeField sadd0Values v = ReadVariant.variant n →
            ∃ ev, ev ∈ sadd0Values ∧ ev.name = n ∧ ev.value = some v)
        ∧ (∀ n v, encodeVariant sadd0Values n = some v → v ∈ explicitValues sadd0Values)
        ∧ bitsWriteUnsafe 1 sadd0Values = true) :=
  ⟨by decide, by decide,
    claim4_partial_enum_field 1 sadd0Values (by decide) (by decide)⟩

/-! ## Layout engine (spec section 4.3) -/

/-- A register occupies `ceil(bitWidth / 8)` bytes. -/
def byteWidth (r : Register) : Nat := (r.bitWidth + 7) / 8

/-- One element of a peripheral's laid-out register block: a register or an
opaque padding block of a byte length. -/
inductive LayoutItem where
  | reg (r : Register)
  | pad (bytes : Nat)
deriving DecidableEq

/-- Offset order on registers, used by the layout engine's sort. -/
def regLE (a b : Register) : Prop := a.addressOffset ≤ b.addressOffset

instance : DecidableRel regLE := fun a b => Nat.decLe a.addressOffset b.addressOffset

instance : IsTotal Register regLE := ⟨fun a b => Nat.le_total a.addressOffset b.addressOffset⟩

instance : IsTrans Register regLE := ⟨fun _ _ _ => Nat.le_trans⟩

/-- Modelled from the spec: the layout engine orders each peripheral's
registers by offset ascending (the executable engine is not in the
snapshot). -/
def sortRegisters (regs : List Register) : List Register := List.insertionSort regLE regs

/-- Modelled from the spec: walk the offset-sorted registers from byte
position `pos`, recording each gap before a register as opaque padding of
exactly the gap's byte length. -/
def layoutFrom (pos : Nat) : List Register → List LayoutItem
  | [] => []
  | r :: rs =>
    if pos < r.addressOffset then
      LayoutItem.pad (r.addressOffset - pos) :: LayoutItem.reg r ::
        layoutFrom (r.addressOffset + byteWidth r) rs
    else
      LayoutItem.reg r :: layoutFrom (r.addressOffset + byteWidth r) rs

/-- Modelled from the spec: the register-block layout of a peripheral's
register set, starting at byte 0 of the block. -/
def layout (regs : List Register) : List LayoutItem := layoutFrom 0 (sortRegisters regs)

/-- The registers of a layout, in layout order, with padding dropped. -/
def registersOf (items : List LayoutItem) : List Register :=
  items.filterMap (fun it =>
    match it with
    | LayoutItem.reg r => some r
    | LayoutItem.pad _ => none)

/-- Checker that a layout starting at `pos` is gap-exact: every register
sits exactly at its declared offset and every padding block is positive and
fills the space up to the next item. -/
def layoutOk : Nat → List LayoutItem → Bool
  | _, [] => true
  | pos, LayoutItem.pad n :: rest => decide (0 < n) && layoutOk (pos + n) rest
  | pos, LayoutItem.reg r :: rest =>
      (r.addressOffset == pos) && layoutOk (pos + byteWidth r) rest

/-- Two registers' occupied byte ranges do not overlap. -/
def regDisjoint (a b : Register) : Prop :=
  a.addressOffset + byteWidth a ≤ b.addressOffset
    ∨ b.addressOffset + byteWidth b ≤ a.addressOffset

instance : DecidableRel regDisjoint := fun a b =>
  inferInstanceAs (Decidable (a.addressOffset + byteWidth a ≤ b.addressOffset
    ∨ b.addressOffset + byteWidth b ≤ a.addressOffset))

/-- The end-before-start chain relation of an offset-sorted,
non-overlapping register list. -/
def regChain (a b : Register) : Prop :=
  a.addressOffset + byteWidth a ≤ b.addressOffset

lemma layoutFrom_spec :
    ∀ (regs : List Register) (pos : Nat),
      (∀ b ∈ regs.head?, pos ≤ b.addressOffset) →
      List.Chain' regChain regs →
      registersOf (layoutFrom pos regs) = regs
        ∧ layoutOk pos (layoutFrom pos regs) = true := by
  intro regs
  induction regs with
  | nil =>
    intro pos _ _
    simp [layoutFrom, registersOf, layoutOk]
  | cons r rs ih =>
    intro pos hhead hchain
    have hle : pos ≤ r.addressOffset := hhead r rfl
    have hchain' : List.Chain' regChain rs := hchain.tail
    have hhead' : ∀ b ∈ rs.head?, r.addressOffset + byteWidth r ≤ b.addressOffset := by
      intro b hb
      cases rs with
      | nil => simp at hb
      | cons c cs =>
        have hbc : c = b := by simpa using hb
        have hrel : regChain r c := (List.chain'_cons.mp hchain).1
        rw [← hbc]
        exact hrel
    obtain ⟨ih1, ih2⟩ := ih (r.addressOffset + byteWidth r) hhead' hchain'
    by_cases hlt : pos < r.addressOffset
    · constructor
      · simp [layoutFrom, hlt, registersOf] at ih1 ⊢
        exact ih1
      · simp only [layoutFrom, if_pos hlt, layoutOk]
        have hpos : pos + (r.addressOffset - pos) = r.addressOffset := by omega
        rw [hpos]
        simp [ih2]
        omega
    · have heq : r.addressOffset = pos := by omega
      constructor
      · simp [layoutFrom, hlt, registersOf] at ih1 ⊢
        exact ih1
      · simp only [layoutFrom, if_neg hlt, layoutOk, Bool.and_eq_true, beq_iff_eq]
        rw [← heq]
        exact ⟨rfl, ih2⟩

lemma regDisjoint_symm {a b : Register} (h : regDisjoint a b) : regDisjoint b a := h.symm

lemma sorted_disjoint_chain (regs : List Register)
    (hsort : List.Sorted regLE regs)
    (hnov : List.Pairwise regDisjoint regs)
    (hw : ∀ r ∈ regs, 0 < byteWidth r) :
    List.Chain' regChain regs := by
  have hsp : List.Pairwise regLE regs := hsort
  have hpair : List.Pairwise (fun a b => regLE a b ∧ regDisjoint a b) regs :=
    List.Pairwise.and hsp hnov
  have hpc : List.Pairwise regChain regs := by
    refine hpair.imp_of_mem ?_
    intro a b ha hb hab
    rcases hab.2 with h | h
    · exact h
    · have h1 : a.addressOffset ≤ b.addressOffset := hab.1
      have h2 : 0 < byteWidth b := hw b hb
      exact absurd h (by omega)
  exact hpc.chain'

/-- The GPIOA scenario register MODER: offset 0, width 32, read-write. -/
def moderReg : Register := ⟨"MODER", 0, 32, some Access.readWrite, 0, []⟩

/-- The GPIOA scenario register ODR: offset 0x14, width 32, read-write. -/
def odrReg : Register := ⟨"ODR", 0x14, 32, some Access.readWrite, 0, []⟩

/-- C5: the layout engine orders a peripheral's registers by offset
ascending (keeping exactly the given registers), places every register at
its declared offset with occupied range `[offset, offset + ceil(width/8))`,
records each gap as padding of exactly the gap's byte length, and on the
GPIOA scenario emits MODER, a 16-byte padding block, then ODR. -/
theorem claim5_layout_gaps (regs : List Register)
    (hnov : List.Pairwise regDisjoint regs)
    (hw : ∀ r ∈ regs, 0 < byteWidth r) :
    List.Sorted regLE (registersOf (layout regs))
    ∧ (registersOf (layout regs)).Perm regs
    ∧ layoutOk 0 (layout regs) = true
    ∧ layout [moderReg, odrReg] =
        [LayoutItem.reg moderReg, LayoutItem.pad 16, LayoutItem.reg odrReg] := by
  have hperm : (sortRegisters regs).Perm regs := List.perm_insertionSort regLE regs
  have hsort : List.Sorted regLE (sortRegisters regs) := List.sorted_insertionSort regLE regs
  have hnov' : List.Pairwise regDisjoint (sortRegisters regs) :=
    (hperm.pairwise_iff regDisjoint_symm).mpr hnov
  have hw' : ∀ r ∈ sortRegisters regs, 0 < byteWidth r := fun r hr =>
    hw r (hperm.mem_iff.mp hr)
  have hchain : List.Chain' regChain (sortRegisters regs) :=
    sorted_disjoint_chain (sortRegisters regs) hsort hnov' hw'
  obtain ⟨h1, h2⟩ := layoutFrom_spec (sortRegisters regs) 0 (by simp) hchain
  refine ⟨?_, ?_, h2, by decide⟩
  · rw [layout, h1]
    exact hsort
  · rw [layout, h1]
    exact hperm

/-- Witness for C5 at the GPIOA scenario register pair. -/
theorem claim5_layout_gaps_witness :
    List.Pairwise regDisjoint [moderReg, odrReg]
    ∧ (∀ r ∈ [moderReg, odrReg], 0 < byteWidth r)
    ∧ (List.Sorted regLE (registersOf (layout [moderReg, odrReg]))
        ∧ (registersOf (layout [moderReg, odrReg])).Perm [moderReg, odrReg]
        ∧ layoutOk 0 (layout [moderReg, odrReg]) = true
        ∧ layout [moderReg, odrReg] =
            [LayoutItem.reg moderReg, LayoutItem.pad 16, LayoutItem.reg odrReg]) :=
  ⟨by decide, by decide,
    claim5_layout_gaps [moderReg, odrReg] (by decide) (by decide)⟩

/-! ## Derivation resolution (spec section 4.2) -/

/-- Name lookup of a peripheral within a device. -/
def findPeripheral (d : Device) (n : String) : Option Peripheral :=
  d.peripherals.find? (fun p => p.name == n)

/-- Modelled from the spec: a field explicitly present on the deriving
peripheral replaces the same-named field of the copied register (the
executable resolver is not in the snapshot). -/
def overrideField (own : List Field) (f : Field) : Field :=
  match own.find? (fun g => g.name == f.name) with
  | some g => g
  | none => f

/-- Modelled from the spec: the deep copy of a source register, with the
deriving peripheral's same-named register (when present) supplying field
overrides; names and relative offsets are kept. -/
def overrideRegister (ownRegs : List Register) (r : Register) : Register :=
  match ownRegs.find? (fun s => s.name == r.name) with
  | some s =>
    ⟨r.name, r.addressOffset, r.bitWidth, r.access, r.resetValue,
      r.fields.map (overrideField s.fields)⟩
  | none => r

/-- Modelled from the spec: resolving `b derivedFrom a` produces an
independent copy of `a`'s register set on `b`, keeps `b`'s base address,
and clears the derivation edge. -/
def resolveDerived (a b : Peripheral) : Peripheral :=
  ⟨b.name, b.baseAddress, none, a.registers.map (overrideRegister b.registers)⟩

/-- The absolute address of a register: peripheral base plus relative
offset. -/
def absoluteAddress (p : Peripheral) (r : Register) : Nat :=
  p.baseAddress + r.addressOffset

lemma overrideRegister_name (own : List Register) (r : Register) :
    (overrideRegister own r).name = r.name := by
  unfold overrideRegister
  cases own.find? (fun s => s.name == r.name) <;> rfl

lemma overrideRegister_addressOffset (own : List Register) (r : Register) :
    (overrideRegister own r).addressOffset = r.addressOffset := by
  unfold overrideRegister
  cases own.find? (fun s => s.name == r.name) <;> rfl

/-- The I2C scenario: I2C1's control register CR1 at relative offset 0. -/
def cr1Reg : Register := ⟨"CR1", 0, 32, some Access.readWrite, 0, []⟩

/-- The I2C scenario: peripheral I2C1 at base 0x40005400 owning CR1. -/
def i2c1 : Peripheral := ⟨"I2C1", 0x40005400, none, [cr1Reg]⟩

/-- The I2C scenario: peripheral I2C2 at base 0x40005800 derived from
I2C1. -/
def i2c2 : Peripheral := ⟨"I2C2", 0x40005800, some "I2C1", []⟩

/-- C6: resolving `b derivedFrom a` yields on `b` a copy of `a`'s register
set in which registers keep their names and relative offsets, absolute
addresses are recomputed from `b`'s base address, fields explicitly present
on `b` replace same-named fields on the copy (absent ones leave the copy
unchanged), and no derivation edge remains; in the I2C scenario the
resolved I2C2.CR1 sits at absolute address 0x40005800. -/
theorem claim6_derived_peripheral_resolution (a b : Peripheral)
    (hd : b.derivedFrom = some a.name) :
    (resolveDerived a b).derivedFrom = none
    ∧ (resolveDerived a b).baseAddress = b.baseAddress
    ∧ (resolveDerived a b).registers.map (fun r => (r.name, r.addressOffset)) =
        a.registers.map (fun r => (r.name, r.addressOffset))
    ∧ (∀ r ∈ (resolveDerived a b).registers,
        absoluteAddress (resolveDerived a b) r = b.baseAddress + r.addressOffset)
    ∧ (∀ r ∈ a.registers, ∀ s, b.registers.find? (fun t => t.name == r.name) = some s →
        ∀ f ∈ r.fields, ∀ g, s.fields.find? (fun t => t.name == f.name) = some g →
          g ∈ (overrideRegister b.registers r).fields)
    ∧ (∀ r ∈ a.registers, b.registers.find? (fun t => t.name == r.name) = none →
        overrideRegister b.registers r = r)
    ∧ absoluteAddress (resolveDerived i2c1 i2c2) cr1Reg = 0x40005800 := by
  refine ⟨rfl, rfl, ?_, ?_, ?_, ?_, by decide⟩
  · show (a.registers.map (overrideRegister b.registers)).map
        (fun r => (r.name, r.addressOffset)) = _
    rw [List.map_map]
    refine List.map_congr_left ?_
    intro r _
    simp [Function.comp, overrideRegister_name, overrideRegister_addressOffset]
  · intro r _
    rfl
  · intro r _ s hfind f hf g hg
    show g ∈ (overrideRegister b.registers r).fields
    unfold overrideRegister
    rw [hfind]
    simp only [List.mem_map]
    refine ⟨f, hf, ?_⟩
    unfold overrideField
    rw [hg]
  · intro r _ hnone
    unfold overrideRegister
    rw [hnone]

/-- Witness for C6 at the I2C1 / I2C2 scenario. -/
theorem claim6_derived_peripheral_resolution_witness :
    i2c2.derivedFrom = some i2c1.name
    ∧ ((resolveDerived i2c1 i2c2).derivedFrom = none
        ∧ (resolveDerived i2c1 i2c2).baseAddress = i2c2.baseAddress
        ∧ (resolveDerived i2c1 i2c2).registers.map (fun r => (r.name, r.addressOffset)) =
            i2c1.registers.map (fun r => (r.name, r.addressOffset))
        ∧ (∀ r ∈ (resolveDerived i2c1 i2c2).registers,
            absoluteAddress (resolveDerived i2c1 i2c2) r = i2c2.baseAddress + r.addressOffset)
        ∧ (∀ r ∈ i2c1.registers, ∀ s,
            i2c2.registers.find? (fun t => t.name == r.name) = some s →
            ∀ f ∈ r.fields, ∀ g, s.fields.find? (fun t => t.name == f.name) = some g →
              g ∈ (overrideRegister i2c2.registers r).fields)
        ∧ (∀ r ∈ i2c1.registers, i2c2.registers.find? (fun t => t.name == r.name) = none →
            overrideRegister i2c2.registers r = r)
        ∧ absoluteAddress (resolveDerived i2c1 i2c2) cr1Reg = 0x40005800) :=
  ⟨rfl, claim6_derived_peripheral_resolution i2c1 i2c2 rfl⟩

/-! ## Derivation chain walking and error detection (spec sections 4.2, 7) -/

/-- Outcome of following one peripheral's `derivedFrom` chain. -/
inductive WalkOutcome where
  | ok
  | cyclic (chain : List String)
  | unresolved (name : String)
deriving DecidableEq

/-- The fatal errors of the derivation resolver. -/
inductive DeriveError where
  | cyclicDerivation (chain : List String)
  | unresolvedReference (name : String)
deriving DecidableEq

/-- Number of peripheral names of the device not yet on the visited chain;
the termination measure of the chain walk. -/
def namesNotSeen (d : Device) (seen : List String) : Nat :=
  ((d.peripherals.map Peripheral.name).filter (fun x => ! seen.contains x)).length

lemma filter_notSeen_cons_lt (l : List String) (seen : List String) (n : String)
    (hmem : n ∈ l) (hns : seen.contains n = false) :
    (l.filter (fun x => ! (n :: seen).contains x)).length <
      (l.filter (fun x => ! seen.contains x)).length := by
  have himp : ∀ x, (fun x => ! (n :: seen).contains x) x = true →
      (fun x => ! seen.contains x) x = true := by
    intro x hx
    simp only [List.contains_cons, Bool.not_eq_true', Bool.or_eq_false_iff] at hx
    simp only [Bool.not_eq_true']
    exact hx.2
  have hsub : List.Sublist (l.filter (fun x => ! (n :: seen).contains x))
      (l.filter (fun x => ! seen.contains x)) := List.monotone_filter_right l himp
  have hle := hsub.length_le
  rcases Nat.lt_or_ge (l.filter (fun x => ! (n :: seen).contains x)).length
      (l.filter (fun x => ! seen.contains x)).length with h | h
  · exact h
  · exfalso
    have heq : l.filter (fun x => ! (n :: seen).contains x) =
        l.filter (fun x => ! seen.contains x) :=
      hsub.eq_of_length (Nat.le_antisymm hle h)
    have hmemP : n ∈ l.filter (fun x => ! seen.contains x) := by
      rw [List.mem_filter]
      refine ⟨hmem, ?_⟩
      simp only [Bool.not_eq_true']
      exact hns
    rw [← heq, List.mem_filter] at hmemP
    simp at hmemP

lemma namesNotSeen_cons_lt (d : Device) (seen : List String) (n : String)
    (hmem : n ∈ d.peripherals.map Peripheral.name) (hns : seen.contains n = false) :
    namesNotSeen d (n :: seen) < namesNotSeen d seen :=
  filter_notSeen_cons_lt (d.peripherals.map Peripheral.name) seen n hmem hns

/-- Modelled from the spec: follow the `derivedFrom` chain starting at name
`n`, with `seen` the names already on the chain; a revisited name is a
cyclic-derivation failure (naming the cycle), a missing referenced name an
unresolved-reference failure (the executable resolver is not in the
snapshot). -/
def walkName (d : Device) (seen : List String) (n : String) : WalkOutcome :=
  if hseen : seen.contains n then WalkOutcome.cyclic (n :: seen)
  else
    match hfind : findPeripheral d n with
    | none => WalkOutcome.unresolved n
    | some p =>
      match p.derivedFrom with
      | none => WalkOutcome.ok
      | some m => walkName d (n :: seen) m
termination_by namesNotSeen d seen
decreasing_by
  have hpmem : p ∈ d.peripherals := List.mem_of_find?_eq_some hfind
  have hpn : p.name = n := by
    have := List.find?_some hfind
    simpa using this
  have hmem : n ∈ d.peripherals.map Peripheral.name :=
    hpn ▸ List.mem_map_of_mem Peripheral.name hpmem
  exact namesNotSeen_cons_lt d seen n hmem (by simpa using hseen)

lemma walkName_eq_ite (d : Device) (seen : List String) (n : String) :
    walkName d seen n =
      if seen.contains n then WalkOutcome.cyclic (n :: seen)
      else
        match findPeripheral d n with
        | none => WalkOutcome.unresolved n
        | some p =>
          match p.derivedFrom with
          | none => WalkOutcome.ok
          | some m => walkName d (n :: seen) m := by
  rw [walkName]
  split
  · rfl
  · cases findPeripheral d n <;> rfl

/-! ## Declarative semantics of the derivation chain -/

/-- State of the deterministic `derivedFrom` chain: at a live name, stopped
at a root (no further derivation), or stopped at a missing reference. -/
inductive ChainState where
  | act (n : String)
  | root (n : String)
  | miss (n : String)
deriving DecidableEq

/-- One step of the `derivedFrom` chain; root and miss are absorbing. -/
def stepState (d : Device) : ChainState → ChainState
  | ChainState.act n =>
    match findPeripheral d n with
    | none => ChainState.miss n
    | some p =>
      match p.derivedFrom with
      | none => ChainState.root n
      | some m => ChainState.act m
  | ChainState.root n => ChainState.root n
  | ChainState.miss n => ChainState.miss n

/-- The chain after `k` derivation steps, starting from name `n`. -/
def chainRun (d : Device) (n : String) (k : Nat) : ChainState :=
  (stepState d)^[k] (ChainState.act n)

/-- Following the chain from `n` revisits some name already on the chain. -/
def Revisits (d : Device) (n : String) : Prop :=
  ∃ x i j, i < j ∧ chainRun d n i = ChainState.act x ∧ chainRun d n j = ChainState.act x

/-- Following the chain from `n` reaches a `derivedFrom` naming the
nonexistent peripheral `m`. -/
def Dangles (d : Device) (n m : String) : Prop :=
  ∃ k, chainRun d n k = ChainState.miss m

/-- Following the chain from `n` ends at a peripheral with no further
derivation. -/
def ReachesRoot (d : Device) (n : String) : Prop :=
  ∃ k m, chainRun d n k = ChainState.root m

lemma chainRun_zero (d : Device) (n : String) : chainRun d n 0 = ChainState.act n := rfl

lemma chainRun_succ (d : Device) (n : String) (k : Nat) :
    chainRun d n (k + 1) = stepState d (chainRun d n k) :=
  Function.iterate_succ_apply' (stepState d) k (ChainState.act n)

lemma chainRun_shift (d : Device) (n m : String) (k : Nat)
    (h : stepState d (ChainState.act n) = ChainState.act m) :
    chainRun d n (k + 1) = chainRun d m k := by
  unfold chainRun
  rw [Function.iterate_succ_apply, h]

lemma chainRun_root_absorb (d : Device) (n : String) {k : Nat} {m : String}
    (h : chainRun d n k = ChainState.root m) :
    ∀ t, chainRun d n (k + t) = ChainState.root m := by
  intro t
  induction t with
  | zero => exact h
  | succ t ih =>
    have : k + (t + 1) = (k + t) + 1 := by omega
    rw [this, chainRun_succ, ih]
    rfl

lemma chainRun_miss_absorb (d : Device) (n : String) {k : Nat} {m : String}
    (h : chainRun d n k = ChainState.miss m) :
    ∀ t, chainRun d n (k + t) = ChainState.miss m := by
  intro t
  induction t with
  | zero => exact h
  | succ t ih =>
    have : k + (t + 1) = (k + t) + 1 := by omega
    rw [this, chainRun_succ, ih]
    rfl

lemma chainRun_act_of_le (d : Device) (n : String) {i j : Nat} {x : String}
    (h : chainRun d n j = ChainState.act x) (hij : i ≤ j) :
    ∃ y, chainRun d n i = ChainState.act y := by
  cases hs : chainRun d n i with
  | act y => exact ⟨y, rfl⟩
  | root m =>
    have := chainRun_root_absorb d n hs (j - i)
    rw [Nat.add_sub_cancel' hij] at this
    rw [this] at h
    cases h
  | miss m =>
    have := chainRun_miss_absorb d n hs (j - i)
    rw [Nat.add_sub_cancel' hij] at this
    rw [this] at h
    cases h

lemma chainRun_eq_shift (d : Device) (n : String) {i j : Nat}
    (h : chainRun d n i = chainRun d n j) (s : Nat) :
    chainRun d n (i + s) = chainRun d n (j + s) := by
  unfold chainRun at h ⊢
  rw [Nat.add_comm i s, Nat.add_comm j s, Function.iterate_add_apply,
    Function.iterate_add_apply, h]

lemma revisits_forever (d : Device) (n : String) (h : Revisits d n) :
    ∀ t, ∃ y, chainRun d n t = ChainState.act y := by
  obtain ⟨x, i, j, hij, hi, hj⟩ := h
  have hkey : ∀ s, chainRun d n (i + s) = chainRun d n (j + s) :=
    chainRun_eq_shift d n (hi.trans hj.symm)
  intro t
  induction t using Nat.strong_induction_on with
  | _ t ih =>
    by_cases ht : t ≤ j
    · exact chainRun_act_of_le d n hj ht
    · have hs : i + (t - j) < t := by omega
      have heq : chainRun d n (i + (t - j)) = chainRun d n t := by
        have := hkey (t - j)
        rwa [Nat.add_sub_cancel' (by omega : j ≤ t)] at this
      obtain ⟨y, hy⟩ := ih (i + (t - j)) hs
      exact ⟨y, heq ▸ hy⟩

lemma revisits_not_reachesRoot (d : Device) (n : String) (h : Revisits d n) :
    ¬ ReachesRoot d n := by
  rintro ⟨k, m, hk⟩
  obtain ⟨y, hy⟩ := revisits_forever d n h k
  rw [hk] at hy
  cases hy

lemma revisits_not_dangles (d : Device) (n : String) (h : Revisits d n) :
    ∀ m, ¬ Dangles d n m := by
  rintro m ⟨k, hk⟩
  obtain ⟨y, hy⟩ := revisits_forever d n h k
  rw [hk] at hy
  cases hy

lemma reachesRoot_not_dangles (d : Device) (n : String) (h : ReachesRoot d n) :
    ∀ m, ¬ Dangles d n m := by
  rintro m ⟨k, hk⟩
  obtain ⟨k', m', hk'⟩ := h
  rcases Nat.le_total k k' with hle | hle
  · have := chainRun_miss_absorb d n hk (k' - k)
    rw [Nat.add_sub_cancel' hle] at this
    rw [this] at hk'
    cases hk'
  · have := chainRun_root_absorb d n hk' (k - k')
    rw [Nat.add_sub_cancel' hle] at this
    rw [this] at hk
    cases hk

/-! ## Soundness of the chain walk -/

lemma stepState_act_eq (d : Device) {n m : String} {p : Peripheral}
    (hfind : findPeripheral d n = some p) (hder : p.derivedFrom = some m) :
    stepState d (ChainState.act n) = ChainState.act m := by
  simp [stepState, hfind, hder]

lemma walkName_ok_sound (d : Device) (seen : List String) (n : String) :
    walkName d seen n = WalkOutcome.ok → ReachesRoot d n := by
  refine walkName.induct d
    (fun seen n => walkName d seen n = WalkOutcome.ok → ReachesRoot d n)
    ?_ ?_ ?_ ?_ seen n
  · intro seen n hseen hok
    rw [walkName_eq_ite, if_pos hseen] at hok
    simp at hok
  · intro seen n hseen hfind hok
    rw [walkName_eq_ite, if_neg hseen, hfind] at hok
    simp at hok
  · intro seen n hseen p hfind hder _
    refine ⟨1, n, ?_⟩
    unfold chainRun
    rw [Function.iterate_one]
    simp [stepState, hfind, hder]
  · intro seen n hseen p hfind m hder ih hok
    rw [walkName_eq_ite, if_neg hseen, hfind] at hok
    simp [hder] at hok
    obtain ⟨k, m', hk⟩ := ih hok
    refine ⟨k + 1, m', ?_⟩
    rw [chainRun_shift d n m k (stepState_act_eq d hfind hder)]
    exact hk

lemma walkName_unresolved_sound (d : Device) (seen : List String) (n u : String) :
    walkName d seen n = WalkOutcome.unresolved u → Dangles d n u := by
  refine walkName.induct d
    (fun seen n => ∀ u, walkName d seen n = WalkOutcome.unresolved u → Dangles d n u)
    ?_ ?_ ?_ ?_ seen n u
  · intro seen n hseen u hok
    rw [walkName_eq_ite, if_pos hseen] at hok
    simp at hok
  · intro seen n hseen hfind u hok
    rw [walkName_eq_ite, if_neg hseen, hfind] at hok
    simp at hok
    subst hok
    refine ⟨1, ?_⟩
    unfold chainRun
    rw [Function.iterate_one]
    simp [stepState, hfind]
  · intro seen n hseen p hfind hder u hok
    rw [walkName_eq_ite, if_neg hseen, hfind] at hok
    simp [hder] at hok
  · intro seen n hseen p hfind m hder ih u hok
    rw [walkName_eq_ite, if_neg hseen, hfind] at hok
    simp [hder] at hok
    obtain ⟨k, hk⟩ := ih u hok
    refine ⟨k + 1, ?_⟩
    rw [chainRun_shift d n m k (stepState_act_eq d hfind hder)]
    exact hk

lemma walkName_cyclic_sound (d : Device) (seen : List String) (n : String) (c : List String) :
    walkName d seen n = WalkOutcome.cyclic c →
      (∃ x k, x ∈ seen ∧ chainRun d n k = ChainState.act x) ∨ Revisits d n := by
  refine walkName.induct d
    (fun seen n => ∀ c, walkName d seen n = WalkOutcome.cyclic c →
      (∃ x k, x ∈ seen ∧ chainRun d n k = ChainState.act x) ∨ Revisits d n)
    ?_ ?_ ?_ ?_ seen n c
  · intro seen n hseen c _
    left
    refine ⟨n, 0, ?_, rfl⟩
    simpa using hseen
  · intro seen n hseen hfind c hok
    rw [walkName_eq_ite, if_neg hseen, hfind] at hok
    simp at hok
  · intro seen n hseen p hfind hder c hok
    rw [walkName_eq_ite, if_neg hseen, hfind] at hok
    simp [hder] at hok
  · intro seen n hseen p hfind m hder ih c hok
    rw [walkName_eq_ite, if_neg hseen, hfind] at hok
    simp [hder] at hok
    have hstep := stepState_act_eq d hfind hder
    rcases ih c hok with ⟨x, k, hx, hk⟩ | hrev
    · rcases List.mem_cons.mp hx with hxn | hxseen
      · right
        refine ⟨n, 0, k + 1, by omega, rfl, ?_⟩
        rw [chainRun_shift d n m k hstep, hk, hxn]
      · left
        refine ⟨x, k + 1, hxseen, ?_⟩
        rw [chainRun_shift d n m k hstep]
        exact hk
    · right
      obtain ⟨x, i, j, hij, hi, hj⟩ := hrev
      refine ⟨x, i + 1, j + 1, by omega, ?_, ?_⟩
      · rw [chainRun_shift d n m i hstep]
        exact hi
      · rw [chainRun_shift d n m j hstep]
        exact hj

lemma walkName_nil_cyclic (d : Device) (n : String) (c : List String)
    (h : walkName d [] n = WalkOutcome.cyclic c) : Revisits d n := by
  rcases walkName_cyclic_sound d [] n c h with ⟨x, k, hx, _⟩ | hrev
  · cases hx
  · exact hrev

lemma walkName_nil_ok_iff (d : Device) (n : String) :
    walkName d [] n = WalkOutcome.ok ↔
      (¬ Revisits d n ∧ ∀ m, ¬ Dangles d n m) := by
  constructor
  · intro h
    have hroot := walkName_ok_sound d [] n h
    exact ⟨fun hrev => revisits_not_reachesRoot d n hrev hroot,
      reachesRoot_not_dangles d n hroot⟩
  · rintro ⟨hnr, hnd⟩
    cases hw : walkName d [] n with
    | ok => rfl
    | cyclic c => exact absurd (walkName_nil_cyclic d n c hw) hnr
    | unresolved m => exact absurd (walkName_unresolved_sound d [] n m hw) (hnd m)

/-! ## Device-level derivation validation -/

/-- Modelled from the spec: the resolver's verdict for one peripheral, the
unit of validation work. -/
def peripheralError (d : Device) (p : Peripheral) : Option DeriveError :=
  match walkName d [] p.name with
  | WalkOutcome.ok => none
  | WalkOutcome.cyclic c => some (DeriveError.cyclicDerivation c)
  | WalkOutcome.unresolved m => some (DeriveError.unresolvedReference m)

/-- Modelled from the spec: the errors collected over all peripherals of a
device; an empty list is success. -/
def resolveDeviceErrors (d : Device) : List DeriveError :=
  d.peripherals.filterMap (peripheralError d)

lemma find_name_self (l : List Peripheral) (p : Peripheral)
    (hnd : (l.map Peripheral.name).Nodup) (hp : p ∈ l) :
    l.find? (fun q => q.name == p.name) = some p := by
  induction l with
  | nil => cases hp
  | cons a l ih =>
    rw [List.map_cons, List.nodup_cons] at hnd
    rcases List.mem_cons.mp hp with rfl | hpl
    · rw [List.find?_cons_of_pos _ (by simp)]
    · have hane : a.name ≠ p.name := by
        intro he
        exact hnd.1 (he ▸ List.mem_map_of_mem Peripheral.name hpl)
      rw [List.find?_cons_of_neg _ (by simp [hane])]
      exact ih hnd.2 hpl

lemma findPeripheral_self (d : Device) (p : Peripheral)
    (hnd : (d.peripherals.map Peripheral.name).Nodup) (hp : p ∈ d.peripherals) :
    findPeripheral d p.name = some p :=
  find_name_self d.peripherals p hnd hp

/-- C7: the derivation resolver reports a cyclic-derivation error for every
peripheral whose `derivedFrom` chain revisits a name already on the chain,
reports an unresolved-reference error for every `derivedFrom` naming a
peripheral that does not exist in the device, and succeeds (no errors)
exactly when no peripheral's chain revisits or dangles. -/
theorem claim7_derivation_resolver_errors :
    (∀ (d : Device) (p : Peripheral), p ∈ d.peripherals → Revisits d p.name →
        ∃ c, DeriveError.cyclicDerivation c ∈ resolveDeviceErrors d)
    ∧ (∀ (d : Device) (p : Peripheral) (m : String),
        (d.peripherals.map Peripheral.name).Nodup → p ∈ d.peripherals →
        p.derivedFrom = some m → findPeripheral d m = none →
        DeriveError.unresolvedReference m ∈ resolveDeviceErrors d)
    ∧ (∀ d : Device, resolveDeviceErrors d = [] ↔
        ∀ p ∈ d.peripherals, ¬ Revisits d p.name ∧ ∀ m, ¬ Dangles d p.name m) := by
  refine ⟨?_, ?_, ?_⟩
  · intro d p hp hrev
    cases hw : walkName d [] p.name with
    | ok =>
      exact absurd (walkName_ok_sound d [] p.name hw)
        (revisits_not_reachesRoot d p.name hrev)
    | unresolved m =>
      exact absurd (walkName_unresolved_sound d [] p.name m hw)
        (revisits_not_dangles d p.name hrev m)
    | cyclic c =>
      refine ⟨c, ?_⟩
      exact List.mem_filterMap.mpr ⟨p, hp, by simp [peripheralError, hw]⟩
  · intro d p m hnd hp hder hfindm
    have hfp : findPeripheral d p.name = some p := findPeripheral_self d p hnd hp
    have hmne : p.name ≠ m := by
      intro he
      rw [← he, hfp] at hfindm
      cases hfindm
    have hw : walkName d [] p.name = WalkOutcome.unresolved m := by
      rw [walkName_eq_ite, if_neg (by simp), hfp]
      simp only [hder]
      rw [walkName_eq_ite, if_neg (by simp [Ne.symm hmne]), hfindm]
    exact List.mem_filterMap.mpr ⟨p, hp, by simp [peripheralError, hw]⟩
  · intro d
    rw [resolveDeviceErrors, List.filterMap_eq_nil_iff]
    constructor
    · intro h p hp
      have hpe := h p hp
      have hwok : walkName d [] p.name = WalkOutcome.ok := by
        cases hw : walkName d [] p.name with
        | ok => rfl
        | cyclic c => simp [peripheralError, hw] at hpe
        | unresolved m => simp [peripheralError, hw] at hpe
      exact (walkName_nil_ok_iff d p.name).mp hwok
    · intro h p hp
      have hwok := (walkName_nil_ok_iff d p.name).mpr (h p hp)
      simp [peripheralError, hwok]

/-- Cycle example: peripheral A derives from B. -/
def pA : Peripheral := ⟨"A", 0, some "B", []⟩

/-- Cycle example: peripheral B derives from A. -/
def pB : Peripheral := ⟨"B", 0, some "A", []⟩

/-- A device with a two-peripheral derivation cycle. -/
def devCyc : Device := ⟨"DCYC", [pA, pB], []⟩

/-- Dangling example: peripheral C derives from a nonexistent name. -/
def pC : Peripheral := ⟨"C", 0, some "MISSING", []⟩

/-- A device with a dangling derivation reference. -/
def devMiss : Device := ⟨"DMISS", [pC], []⟩

/-- Well-formed example: peripheral D derives from nothing. -/
def pD : Peripheral := ⟨"D", 0, none, []⟩

/-- Well-formed example: peripheral E derives from D. -/
def pE : Peripheral := ⟨"E", 0, some "D", []⟩

/-- A device whose derivations all resolve. -/
def devGood : Device := ⟨"DGOOD", [pD, pE], []⟩

/-- Witness for C7 on a cyclic device, a dangling device and a resolvable
device. -/
theorem claim7_derivation_resolver_errors_witness :
    (pA ∈ devCyc.peripherals ∧ Revisits devCyc pA.name
      ∧ (∃ c, DeriveError.cyclicDerivation c ∈ resolveDeviceErrors devCyc))
    ∧ ((devMiss.peripherals.map Peripheral.name).Nodup ∧ pC ∈ devMiss.peripherals
      ∧ pC.derivedFrom = some "MISSING" ∧ findPeripheral devMiss "MISSING" = none
      ∧ DeriveError.unresolvedReference "MISSING" ∈ resolveDeviceErrors devMiss)
    ∧ (resolveDeviceErrors devGood = [] ↔
        ∀ p ∈ devGood.peripherals,
          ¬ Revisits devGood p.name ∧ ∀ m, ¬ Dangles devGood p.name m) := by
  have hrev : Revisits devCyc pA.name := ⟨"A", 0, 2, by omega, rfl, by decide⟩
  refine ⟨⟨by decide, hrev,
      claim7_derivation_resolver_errors.1 devCyc pA (by decide) hrev⟩,
    ⟨by decide, by decide, rfl, by decide,
      claim7_derivation_resolver_errors.2.1 devMiss pC "MISSING" (by decide) (by decide)
        rfl (by decide)⟩,
    claim7_derivation_resolver_errors.2.2 devGood⟩

/-! ## Interrupt table (spec sections 4.5, 6, 7; crate doc lines 384-403) -/

/-- The build-time error for interrupt declarations. -/
inductive BuildError where
  | duplicateInterruptNumber (n : Nat)
deriving DecidableEq

/-- Modelled from the spec: first vector number declared by two interrupts,
if any (the executable builder is not in the snapshot). -/
def firstDupNumber : List Interrupt → Option Nat
  | [] => none
  | i :: rest =>
    if rest.any (fun j => j.value == i.value) then some i.value
    else firstDupNumber rest

/-- Vector-number order on interrupts. -/
def intLE (a b : Interrupt) : Prop := a.value ≤ b.value

instance : DecidableRel intLE := fun a b => Nat.decLe a.value b.value

instance : IsTotal Interrupt intLE := ⟨fun a b => Nat.le_total a.value b.value⟩

instance : IsTrans Interrupt intLE := ⟨fun _ _ _ => Nat.le_trans⟩

/-- Modelled from the spec: building the emitted interrupt table fails with
a duplicate-interrupt-number error when two interrupts claim the same
vector number, and otherwise emits the table ordered by vector number. -/
def buildInterruptTable (ints : List Interrupt) : Except BuildError (List Interrupt) :=
  match firstDupNumber ints with
  | some n => Except.error (BuildError.duplicateInterruptNumber n)
  | none => Except.ok (List.insertionSort intLE ints)

lemma firstDupNumber_eq_none_iff (ints : List Interrupt) :
    firstDupNumber ints = none ↔ (ints.map Interrupt.value).Nodup := by
  induction ints with
  | nil => simp [firstDupNumber]
  | cons i rest ih =>
    by_cases hany : rest.any (fun j => j.value == i.value) = true
    · simp only [firstDupNumber, if_pos hany]
      obtain ⟨j, hj, hjv⟩ := List.any_eq_true.mp hany
      have hmem : i.value ∈ rest.map Interrupt.value := by
        have : j.value = i.value := by simpa using hjv
        exact this ▸ List.mem_map_of_mem Interrupt.value hj
      simp [hmem]
    · have hnmem : i.value ∉ rest.map Interrupt.value := by
        intro hmem
        obtain ⟨j, hj, hjv⟩ := List.mem_map.mp hmem
        exact hany (List.any_eq_true.mpr ⟨j, hj, by simp [hjv]⟩)
      simp only [firstDupNumber, if_neg hany, List.map_cons, List.nodup_cons]
      rw [ih]
      simp [hnmem]

/-- C8: if two interrupts of a device declare the same vector number the
build fails with the duplicate-interrupt-number error; otherwise the
emitted interrupt table lists the same interrupts with vector numbers in
strictly ascending order and hence without duplicates; two interrupts both
declared with vector number 12 produce the error naming 12. -/
theorem claim8_interrupt_numbers (ints : List Interrupt) :
    (¬ (ints.map Interrupt.value).Nodup →
        ∃ n, buildInterruptTable ints =
          Except.error (BuildError.duplicateInterruptNumber n))
    ∧ ((ints.map Interrupt.value).Nodup →
        ∃ t, buildInterruptTable ints = Except.ok t
          ∧ t.Perm ints
          ∧ List.Sorted (fun a b : Interrupt => a.value < b.value) t
          ∧ (t.map Interrupt.value).Nodup)
    ∧ buildInterruptTable [⟨"EXTI0", 12⟩, ⟨"EXTI1", 12⟩] =
        Except.error (BuildError.duplicateInterruptNumber 12) := by
  refine ⟨?_, ?_, rfl⟩
  · intro hdup
    cases hfd : firstDupNumber ints with
    | none => exact absurd ((firstDupNumber_eq_none_iff ints).mp hfd) hdup
    | some n => exact ⟨n, by simp [buildInterruptTable, hfd]⟩
  · intro hnd
    have hfd : firstDupNumber ints = none := (firstDupNumber_eq_none_iff ints).mpr hnd
    have hperm : (List.insertionSort intLE ints).Perm ints :=
      List.perm_insertionSort intLE ints
    have hsorted : List.Sorted intLE (List.insertionSort intLE ints) :=
      List.sorted_insertionSort intLE ints
    have hndt : ((List.insertionSort intLE ints).map Interrupt.value).Nodup :=
      ((hperm.map Interrupt.value).nodup_iff).mpr hnd
    have hne : List.Pairwise (fun a b : Interrupt => a.value ≠ b.value)
        (List.insertionSort intLE ints) := List.pairwise_map.mp hndt
    have hle : List.Pairwise intLE (List.insertionSort intLE ints) := hsorted
    have hlt : List.Sorted (fun a b : Interrupt => a.value < b.value)
        (List.insertionSort intLE ints) := by
      refine (hle.and hne).imp ?_
      intro a b hab
      exact Nat.lt_of_le_of_ne hab.1 hab.2
    exact ⟨List.insertionSort intLE ints, by simp [buildInterruptTable, hfd],
      hperm, hlt, hndt⟩

/-- Witness for C8 on a duplicated pair and on a duplicate-free pair. -/
theorem claim8_interrupt_numbers_witness :
    (¬ (([⟨"EXTI0", 12⟩, ⟨"EXTI1", 12⟩] : List Interrupt).map Interrupt.value).Nodup
      ∧ ∃ n, buildInterruptTable [⟨"EXTI0", 12⟩, ⟨"EXTI1", 12⟩] =
          Except.error (BuildError.duplicateInterruptNumber n))
    ∧ ((([⟨"TIM3", 29⟩, ⟨"TIM2", 28⟩] : List Interrupt).map Interrupt.value).Nodup
      ∧ ∃ t, buildInterruptTable [⟨"TIM3", 29⟩, ⟨"TIM2", 28⟩] = Except.ok t
          ∧ t.Perm [⟨"TIM3", 29⟩, ⟨"TIM2", 28⟩]
          ∧ List.Sorted (fun a b : Interrupt => a.value < b.value) t
          ∧ (t.map Interrupt.value).Nodup) :=
  ⟨⟨by decide, ((claim8_interrupt_numbers [⟨"EXTI0", 12⟩, ⟨"EXTI1", 12⟩]).1 (by decide))⟩,
    ⟨by decide, ((claim8_interrupt_numbers [⟨"TIM3", 29⟩, ⟨"TIM2", 28⟩]).2.1 (by decide))⟩⟩

/-! ## The full pipeline (spec section 2) -/

/-- Modelled from the spec: the model builder; on an input that is already
the semantic model it is the identity adapter. -/
def modelBuild (d : Device) : Device := d

/-- Modelled from the spec: materialization of one peripheral's derivation
(single-level, name-based prototype inheritance). -/
def resolvePeripheral (d : Device) (p : Peripheral) : Peripheral :=
  match p.derivedFrom with
  | none => p
  | some n =>
    match findPeripheral d n with
    | some a => resolveDerived a p
    | none => p

/-- Modelled from the spec: the derivation-resolver stage; it fails on the
first collected error and otherwise materializes every peripheral. -/
def resolveDevice (d : Device) : Except DeriveError Device :=
  match resolveDeviceErrors d with
  | e :: _ => Except.error e
  | [] => Except.ok ⟨d.name, d.peripherals.map (resolvePeripheral d), d.interrupts⟩

/-- A peripheral after the layout stage: its register block as ordered
items. -/
structure LaidOutPeripheral where
  name : String
  baseAddress : Nat
  items : List LayoutItem
deriving DecidableEq

/-- A device after the layout stage. -/
structure LaidOutDevice where
  name : String
  peripherals : List LaidOutPeripheral
  interrupts : List Interrupt
deriving DecidableEq

/-- Modelled from the spec: the layout stage applied to one peripheral. -/
def layoutPeripheral (p : Peripheral) : LaidOutPeripheral :=
  ⟨p.name, p.baseAddress, layout p.registers⟩

/-- Modelled from the spec: the layout stage applied to a device. -/
def layoutDevice (d : Device) : LaidOutDevice :=
  ⟨d.name, d.peripherals.map layoutPeripheral, d.interrupts⟩

/-- The analyzed accessor shape of one register: the register itself, its
method surface and its per-field read/write coverage classes. -/
structure RegisterShape where
  register : Register
  methods : List Method
  readShapes : List Coverage
  writeShapes : List Coverage
deriving DecidableEq

/-- Modelled from the spec: the access-and-safety analysis of a single
register. -/
def analyzeRegister (r : Register) : RegisterShape :=
  ⟨r, regMethods (inferAccess r),
    r.fields.map (fun f => coverage f.bitWidth f.readValues),
    r.fields.map (fun f => coverage f.bitWidth f.writeValues)⟩

/-- One element of an emitted register block. -/
inductive EmittedItem where
  | reg (shape : RegisterShape)
  | pad (bytes : Nat)
deriving DecidableEq

/-- Modelled from the spec: the emitter turns each layout item into an
output item, analyzing registers and keeping padding opaque. -/
def emitItem : LayoutItem → EmittedItem
  | LayoutItem.reg r => EmittedItem.reg (analyzeRegister r)
  | LayoutItem.pad n => EmittedItem.pad n

/-- An emitted peripheral description. -/
structure EmittedPeripheral where
  name : String
  baseAddress : Nat
  items : List EmittedItem
deriving DecidableEq

/-- The emitted output tree of a device. -/
structure EmittedDevice where
  name : String
  peripherals : List EmittedPeripheral
  interrupts : List Interrupt
deriving DecidableEq

/-- Modelled from the spec: the emitter applied to one laid-out
peripheral. -/
def emitPeripheral (p : LaidOutPeripheral) : EmittedPeripheral :=
  ⟨p.name, p.baseAddress, p.items.map emitItem⟩

/-- Modelled from the spec: the emitter applied to a laid-out device. -/
def emitDevice (ld : LaidOutDevice) : EmittedDevice :=
  ⟨ld.name, ld.peripherals.map emitPeripheral, ld.interrupts⟩

/-- Modelled from the spec: the full pipeline, model builder through
emitter. -/
def pipeline (d : Device) : Except DeriveError EmittedDevice :=
  match resolveDevice (modelBuild d) with
  | Except.error e => Except.error e
  | Except.ok d2 => Except.ok (emitDevice (layoutDevice d2))

/-- The register carried by an emitted item, if any. -/
def stripItem : EmittedItem → Option Register
  | EmittedItem.reg shape => some shape.register
  | EmittedItem.pad _ => none

/-- Recover the model peripheral from an emitted peripheral by dropping
padding and analysis annotations. -/
def stripPeripheral (p : EmittedPeripheral) : Peripheral :=
  ⟨p.name, p.baseAddress, none, p.items.filterMap stripItem⟩

/-- Recover the model device from the emitted output tree. -/
def stripDevice (e : EmittedDevice) : Device :=
  ⟨e.name, e.peripherals.map stripPeripheral, e.interrupts⟩

lemma stripItem_emitItem (it : LayoutItem) :
    stripItem (emitItem it) =
      match it with
      | LayoutItem.reg r => some r
      | LayoutItem.pad _ => none := by
  cases it <;> rfl

lemma findPeripheral_ne_none (d : Device) (p : Peripheral) (hp : p ∈ d.peripherals) :
    findPeripheral d p.name ≠ none := by
  intro hnone
  have := List.find?_eq_none.mp hnone p hp
  simp at this

lemma walkName_ok_of_underived (d : Device)
    (hder : ∀ p ∈ d.peripherals, p.derivedFrom = none)
    (p : Peripheral) (hp : p ∈ d.peripherals) :
    walkName d [] p.name = WalkOutcome.ok := by
  rw [walkName_eq_ite, if_neg (by simp)]
  cases hf : findPeripheral d p.name with
  | none => exact absurd hf (findPeripheral_ne_none d p hp)
  | some q =>
    have hq : q ∈ d.peripherals := List.mem_of_find?_eq_some hf
    simp [hder q hq]

lemma registersOf_layout_of_sorted (regs : List Register)
    (hsorted : List.Sorted regLE regs)
    (hnov : List.Pairwise regDisjoint regs)
    (hw : ∀ r ∈ regs, 0 < byteWidth r) :
    registersOf (layout regs) = regs := by
  have hchain : List.Chain' regChain regs := sorted_disjoint_chain regs hsorted hnov hw
  have hid : sortRegisters regs = regs := hsorted.insertionSort_eq
  rw [layout, hid]
  exact (layoutFrom_spec regs 0 (fun b _ => Nat.zero_le _) hchain).1

/-- C9: on an input model that is already fully resolved (registers in
address order), has no `derivedFrom` edges and no overlapping registers,
the pipeline succeeds and its output is the input model, except for the
explicit padding blocks the layout engine inserts (stripping padding and
analysis annotations recovers the input exactly). -/
theorem claim9_pipeline_roundtrip (d : Device)
    (hder : ∀ p ∈ d.peripherals, p.derivedFrom = none)
    (hsorted : ∀ p ∈ d.peripherals, List.Sorted regLE p.registers)
    (hnov : ∀ p ∈ d.peripherals, List.Pairwise regDisjoint p.registers)
    (hw : ∀ p ∈ d.peripherals, ∀ r ∈ p.registers, 0 < byteWidth r) :
    pipeline d = Except.ok (emitDevice (layoutDevice d))
    ∧ stripDevice (emitDevice (layoutDevice d)) = d := by
  have herr : resolveDeviceErrors d = [] := by
    rw [resolveDeviceErrors, List.filterMap_eq_nil_iff]
    intro p hp
    simp [peripheralError, walkName_ok_of_underived d hder p hp]
  have hres : resolveDevice d = Except.ok d := by
    rw [resolveDevice, herr]
    have hmap : d.peripherals.map (resolvePeripheral d) = d.peripherals := by
      have h1 : d.peripherals.map (resolvePeripheral d) = d.peripherals.map id :=
        List.map_congr_left (fun p hp => by simp [resolvePeripheral, hder p hp])
      rw [h1, List.map_id]
    rw [hmap]
  have hstrip : ∀ p ∈ d.peripherals,
      stripPeripheral (emitPeripheral (layoutPeripheral p)) = p := by
    intro p hp
    have hro : ((layout p.registers).map emitItem).filterMap stripItem =
        registersOf (layout p.registers) := by
      rw [List.filterMap_map]
      unfold registersOf
      exact List.filterMap_congr (fun x _ => stripItem_emitItem x)
    have hregs := registersOf_layout_of_sorted p.registers
      (hsorted p hp) (hnov p hp) (hw p hp)
    have hpd := hder p hp
    cases p with
    | mk nm base dfrm regs =>
      simp only at hpd
      subst hpd
      simp only [stripPeripheral, emitPeripheral, layoutPeripheral]
      rw [hro, hregs]
  have hmaps : ((d.peripherals.map layoutPeripheral).map emitPeripheral).map
      stripPeripheral = d.peripherals := by
    rw [List.map_map, List.map_map]
    have h1 : d.peripherals.map ((stripPeripheral ∘ emitPeripheral) ∘ layoutPeripheral) =
        d.peripherals.map id :=
      List.map_congr_left (fun p hp => by
        simp only [Function.comp]
        exact hstrip p hp)
    rw [h1, List.map_id]
  constructor
  · simp only [pipeline, modelBuild]
    rw [hres]
  · simp only [stripDevice, emitDevice, layoutDevice]
    rw [hmaps]

/-- The GPIOA scenario peripheral, fully resolved. -/
def gpioA : Peripheral := ⟨"GPIOA", 0x48000000, none, [moderReg, odrReg]⟩

/-- A fully resolved, non-derived, non-overlapping device for the
round-trip property. -/
def devRound : Device := ⟨"STM32", [gpioA], [⟨"TIM2", 28⟩]⟩

/-- Witness for C9 at the fully resolved GPIOA device. -/
theorem claim9_pipeline_roundtrip_witness :
    (∀ p ∈ devRound.peripherals, p.derivedFrom = none)
    ∧ (∀ p ∈ devRound.peripherals, List.Sorted regLE p.registers)
    ∧ (∀ p ∈ devRound.peripherals, List.Pairwise regDisjoint p.registers)
    ∧ (∀ p ∈ devRound.peripherals, ∀ r ∈ p.registers, 0 < byteWidth r)
    ∧ (pipeline devRound = Except.ok (emitDevice (layoutDevice devRound))
        ∧ stripDevice (emitDevice (layoutDevice devRound)) = devRound) :=
  ⟨by decide, by decide, by decide, by decide,
    claim9_pipeline_roundtrip devRound (by decide) (by decide) (by decide) (by decide)⟩

/-! ## The exported interrupt macro (src/lib.rs lines 448-454) -/

/-- One interrupt-local variable declaration of an `interrupt!` locals
block: its name, type and initializer, as matched by the second arm. -/
structure LocalDecl where
  name : String
  ty : String
  init : String
deriving DecidableEq

/-- The arguments of an `interrupt!` invocation: the interrupt name, the
handler path, and (when the `locals:` block form is used) the list of
local-variable declarations. -/
structure InterruptArgs where
  name : String
  path : String
  localDecls : Option (List LocalDecl)
deriving DecidableEq

/-- An item a macro expansion could generate. -/
inductive GeneratedItem where
  | code (text : String)
deriving DecidableEq

/-- The `interrupt!` macro of src/lib.rs: the first arm matches a name and
a handler path, the second a name, a path and a locals block with at least
one declaration (the pattern repeats with `+`); both arms expand to
nothing, and an invocation with an empty locals block matches neither
arm. -/
def interruptExpand : InterruptArgs → Option (List GeneratedItem)
  | ⟨_, _, none⟩ => some []
  | ⟨_, _, some []⟩ => none
  | ⟨_, _, some (_ :: _)⟩ => some []

/-- C10: every `interrupt!` invocation matching one of the two arms (no
locals block, or a non-empty locals block) expands to nothing — the
handler path and all local declarations are discarded — and an invocation
with an empty locals block matches neither arm. -/
theorem claim10_interrupt_expands_to_nothing :
    (∀ a : InterruptArgs, a.localDecls = none → interruptExpand a = some [])
    ∧ (∀ (a : InterruptArgs) (l : LocalDecl) (ls : List LocalDecl),
        a.localDecls = some (l :: ls) → interruptExpand a = some [])
    ∧ (∀ a : InterruptArgs, a.localDecls = some [] → interruptExpand a = none)
    ∧ (∀ (a : InterruptArgs) (out : List GeneratedItem),
        interruptExpand a = some out → out = []) := by
  refine ⟨?_, ?_, ?_, ?_⟩
  · rintro ⟨n, p, ld⟩ h
    simp only at h
    subst h
    rfl
  · rintro ⟨n, p, ld⟩ l ls h
    simp only at h
    subst h
    rfl
  · rintro ⟨n, p, ld⟩ h
    simp only at h
    subst h
    rfl
  · rintro ⟨n, p, ld⟩ out h
    rcases ld with _ | ⟨_ | ⟨l, ls⟩⟩ <;> simp [interruptExpand] at h <;> simp [h]

/-- Witness for C10 at concrete invocations from the crate doc example. -/
theorem claim10_interrupt_expands_to_nothing_witness :
    interruptExpand ⟨"TIM2", "periodic", none⟩ = some []
    ∧ interruptExpand ⟨"TIM3", "tick", some [⟨"tick", "bool", "false"⟩]⟩ = some []
    ∧ interruptExpand ⟨"TIM4", "bad", some []⟩ = none :=
  ⟨claim10_interrupt_expands_to_nothing.1 ⟨"TIM2", "periodic", none⟩ rfl,
    claim10_interrupt_expands_to_nothing.2.1 ⟨"TIM3", "tick", some [⟨"tick", "bool", "false"⟩]⟩
      ⟨"tick", "bool", "false"⟩ [] rfl,
    claim10_interrupt_expands_to_nothing.2.2.1 ⟨"TIM4", "bad", some []⟩ rfl⟩

end Svd
